import Mathlib

/-
Shallow embedding of gptools/kernel/matern.py (class MaternKernel).

Modelling choices:
* Machine floats become elements of an abstract linear ordered field `R`;
  witnesses instantiate `R := ℚ`.  All branch tests of the source
  (`y != 0`, `r2l2 == 0`, `n < 2.0 * self.nu`, `n % 2 == 1`, length tests)
  are exact comparisons in the source and stay exact comparisons here.
* The external special functions (scipy.special.kv / kvp / gamma,
  scipy.sqrt on nontrivial arguments, float `**` with non-integer exponent,
  mpmath.diff composed with mpmath.chop) are opaque to the source and are
  modelled as fields of a `SpecialFns` record that every definition takes
  as an argument.  Integer-exponent squares (`**2.0` on a length scale,
  `(tau_i/l_i)**2`) are exact and use the ring power `^ 2`.
* numpy row vectors become `List R`; an (M, N) matrix becomes
  `List (List R)`.  Elementwise numpy arithmetic with boolean-mask
  assignment (`a[mask] op= e; a[~mask] = e2`) becomes a per-row `if` on the
  mask predicate inside a `List.map`, which computes the identical final
  per-row values.  Python `for`-loops accumulating into an array become
  `List.foldl` per row.
* Methods of the Python class take the object `self` and also return the
  object they leave behind, making the (absence of) mutation of
  `self.params` part of the model.  A `Bool` in the result of
  `_compute_dk_dy` records whether `warnings.warn` was invoked.
-/

namespace Gptools

variable {R : Type} [LinearOrderedField R]

/-- Abstract interface to the external special-function and arbitrary-precision
libraries used by the kernel (scipy.special and mpmath):
`sqrt x` is scipy.sqrt, `rpow x p` is float `x ** p`, `gamma` is
scipy.special.gamma, `kvp nu y n` is scipy.special.kvp(nu, y, n=n) (the n-th
derivative of the modified Bessel function of the second kind),
`mpDiffCore nu n` is mpmath.chop(mpmath.diff(lambda x: x**nu * besselk(nu, x),
0, n=n, singular=True, direction=1)), and `mpDiffY params derivs` is
mpmath.chop(mpmath.diff(_compute_y_wrapper, zeros(N), n=derivs, singular=True,
direction=1)) for a kernel with hyperparameter vector `params`. -/
structure SpecialFns (R : Type) where
  sqrt : R → R
  rpow : R → R → R
  gamma : R → R
  kvp : R → R → ℕ → R
  mpDiffCore : R → ℕ → R
  mpDiffY : List R → List ℕ → R

/-- Modified Bessel function of the second kind: scipy.special.kvp with n = 0
is scipy.special.kv itself. -/
def SpecialFns.kv (L : SpecialFns R) (nu y : R) : R := L.kvp nu y 0

/-- Rising (Pochhammer) factorial scipy.special.poch(x, k) for a natural
number k of factors: x (x+1) ⋯ (x+k-1). -/
def pochR (x : R) : ℕ → R
  | 0 => 1
  | k + 1 => pochR x k * (x + (k : R))

/-- Matern kernel object: owns the hyperparameter vector
[sigma, nu, l1, ..., ld]. -/
structure MaternKernel (R : Type) where
  params : List R

/-- Accessor nu: a pure read of self.params[1]. -/
def MaternKernel.nu (self : MaternKernel R) : R := self.params.getD 1 0

/-- Modelled from the spec: `_compute_r2l2` lives in the ChainRuleKernel base
class (gptools/kernel/core.py), which is not part of the sources; the spec
defines the scaled squared distance per row as `Σ_i (tau_i / l_i)^2`, with the
length scales being the hyperparameters from index 2 on. -/
def _compute_r2l2 (self : MaternKernel R) (tau : List (List R)) : List R :=
  tau.map (fun row => ((row.zip (self.params.drop 2)).map (fun tl => (tl.1 / tl.2) ^ 2)).sum)

/-- Method _compute_y: converts tau to y = sqrt(2 nu r2l2); with
return_r2l2=True the source returns the pair (y, r2l2), which is what this
model always returns. -/
def MaternKernel._compute_y (L : SpecialFns R) (self : MaternKernel R)
    (tau : List (List R)) : List R × List R :=
  let r2l2 := _compute_r2l2 self tau
  (r2l2.map (fun r => L.sqrt (2 * self.nu * r)), r2l2)

/-- Method _compute_k: per row, k = 2^(1-nu)/Gamma(nu) * y^nu * kv(nu, y) with
y = sqrt(2 nu r2l2), followed by the masked overwrite k[r2l2 == 0] = 1; the
row function below produces the identical final per-row value.  Second
component: the object state after the call. -/
def MaternKernel._compute_k (L : SpecialFns R) (self : MaternKernel R)
    (tau : List (List R)) : List R × MaternKernel R :=
  ((_compute_r2l2 self tau).map (fun r =>
    if r = 0 then 1 else
      L.rpow 2 (1 - self.nu) / L.gamma self.nu *
        L.rpow (L.sqrt (2 * self.nu * r)) self.nu *
        L.kv self.nu (L.sqrt (2 * self.nu * r))), self)

/-- Leibniz accumulation loop of _compute_dk_dy at one row with y != 0:
for k in xrange(0, n+1): dk_dy += binom(n,k) * poch(1-k+nu, k) *
y**(-k+nu) * kvp(nu, y, n=n-k), starting from zeros. -/
def dkdySum (L : SpecialFns R) (nu y : R) (n : ℕ) : R :=
  (List.range (n + 1)).foldl
    (fun acc k => acc +
      (n.choose k : R) * pochR (1 - (k : R) + nu) k *
        L.rpow y (-(k : R) + nu) * L.kvp nu y (n - k)) 0

/-- Value written by _compute_dk_dy into the rows with y == 0 (before the
final scaling): John Wright's closed form when n < 2 nu — 0 for odd n, and
(-1)^m * 2^(nu-1-n) * Gamma(nu-m) * n!/m! with m = n/2 for even n — and the
mpmath numerical derivative of x^nu K_nu(x) at 0 otherwise.  Python computes
m = n / 2.0 as a float; for even n it is the exact integer n/2, and
(-1.0)**m with integral m is the exact sign (-1)^m. -/
def dkdyOrigin (L : SpecialFns R) (nu : R) (n : ℕ) : R :=
  if (n : R) < 2 * nu then
    if n % 2 = 1 then 0
    else
      (-1 : R) ^ (n / 2) * L.rpow 2 (nu - 1 - (n : R)) *
        L.gamma (nu - ((n / 2 : ℕ) : R)) *
        (n.factorial : R) / ((n / 2).factorial : R)
  else L.mpDiffCore nu n

/-- Method _compute_dk_dy: accumulates the Leibniz sum into the rows with
y != 0, fills the rows with y == 0 from the closed form or the mpmath
fallback, and finally scales every row by 2^(1-nu)/Gamma(nu).  The Bool
records whether warnings.warn was invoked, which happens iff n >= 2*nu.
Second component: the object state after the call. -/
def MaternKernel._compute_dk_dy (L : SpecialFns R) (self : MaternKernel R)
    (y : List R) (n : ℕ) : (List R × Bool) × MaternKernel R :=
  ((y.map (fun yi =>
      (if yi ≠ 0 then dkdySum L self.nu yi n else dkdyOrigin L self.nu n) *
        (L.rpow 2 (1 - self.nu) / L.gamma self.nu)),
    decide (2 * self.nu ≤ (n : R))), self)

/-- Row function of _compute_dT_dtau: derivative of the tau^2 sum term with
respect to the dimensions listed in the block b.  scipy.unique(b) returns the
sorted distinct values of b; only its length and (when it is a singleton) its
sole element are used, so List.dedup is an adequate model.  The squares
`(self.params[2 + tau_idx])**2.0` have exact integer exponent and are the ring
square. -/
def dTRow (self : MaternKernel R) (trow : List R) (b : List ℕ) : R :=
  let unique_d := b.dedup
  if 3 ≤ b.length ∨ 1 < unique_d.length then 0
  else
    let tau_idx := unique_d.headD 0
    if b.length = 1 then 2 * trow.getD tau_idx 0 / (self.params.getD (2 + tau_idx) 0) ^ 2
    else 2 / (self.params.getD (2 + tau_idx) 0) ^ 2

/-- Method _compute_dT_dtau: the elementwise vector computation is `dTRow`
mapped over the rows of tau (zeros(tau.shape[0]) is the constant-0 row map).
Second component: the object state after the call. -/
def MaternKernel._compute_dT_dtau (self : MaternKernel R) (tau : List (List R))
    (b : List ℕ) : List R × MaternKernel R :=
  (tau.map (fun trow => dTRow self trow b), self)

/-- Row function of _compute_dy_dtau_on_partition: starting from
sqrt(2 nu) * poch(1 - n + 0.5, n) * r2l2**(-n + 0.5) with n = len(p), the
loop `for b in p: dy_dtau *= self._compute_dT_dtau(tau, b)` multiplies in the
blocks left to right. -/
def dyDtauTermRow (L : SpecialFns R) (self : MaternKernel R) (trow : List R)
    (p : List (List ℕ)) (r : R) : R :=
  p.foldl (fun acc blk => acc * dTRow self trow blk)
    (L.sqrt (2 * self.nu) * pochR (1 - (p.length : R) + 1 / 2) p.length *
      L.rpow r (-(p.length : R) + 1 / 2))

/-- Method _compute_dy_dtau_on_partition: the elementwise vector computation
is `dyDtauTermRow` mapped over the rows (tau and r2l2 are index-aligned).
Second component: the object state after the call. -/
def MaternKernel._compute_dy_dtau_on_partition (L : SpecialFns R)
    (self : MaternKernel R) (tau : List (List R)) (p : List (List ℕ))
    (r2l2 : List R) : List R × MaternKernel R :=
  ((tau.zip r2l2).map (fun tr => dyDtauTermRow L self tr.1 p tr.2), self)

/-- Helper for `generate_set_partitions`: all ways to insert x into exactly one
block of the partition p. -/
def insertIntoBlocks {α : Type} (x : α) : List (List α) → List (List (List α))
  | [] => []
  | blk :: rest => ((x :: blk) :: rest) :: (insertIntoBlocks x rest).map (fun q => blk :: q)

/-- Modelled from the spec: `generate_set_partitions` lives in gptools/utils.py,
which is not part of the sources; the spec requires an enumerator returning
every set partition of the multi-index exactly once, each partition a list of
disjoint non-empty blocks covering the entries (by position).  Standard
recursion: a partition of x :: xs either puts x in a new singleton block or
inserts it into one of the blocks of a partition of xs. -/
def generate_set_partitions {α : Type} : List α → List (List (List α))
  | [] => [[]]
  | x :: xs =>
    (generate_set_partitions xs).flatMap (fun p => ([x] :: p) :: insertIntoBlocks x p)

/-- Per-dimension derivative-order vector of _compute_dy_dtau:
derivs = zeros(tau.shape[1]); for d in b: derivs[d] += 1. -/
def derivsOf (b : List ℕ) (nDim : ℕ) : List ℕ :=
  b.foldl (fun derivs d => derivs.set d (derivs.getD d 0 + 1)) (List.replicate nDim 0)

/-- Method _compute_dy_dtau: rows with r2l2 != 0 accumulate, over every
partition p of b, the row value of _compute_dy_dtau_on_partition; rows with
r2l2 == 0 receive the mpmath derivative of _compute_y_wrapper at the origin
with order vector `derivsOf b nDim`.  `nDim` stands for tau.shape[1], the
column count that a numpy matrix carries even when it has no rows.  Second
component: the object state after the call. -/
def MaternKernel._compute_dy_dtau (L : SpecialFns R) (self : MaternKernel R)
    (tau : List (List R)) (b : List ℕ) (r2l2 : List R) (nDim : ℕ) :
    List R × MaternKernel R :=
  ((tau.zip r2l2).map (fun tr =>
    if tr.2 ≠ 0 then
      (generate_set_partitions b).foldl
        (fun acc p => acc + dyDtauTermRow L self tr.1 p tr.2) 0
    else L.mpDiffY self.params (derivsOf b nDim)), self)

/-- Concrete instantiation of the external-library interface over ℚ, used to
evaluate the definitions on concrete inputs. -/
def testLib : SpecialFns ℚ :=
  ⟨fun _ => 0, fun _ _ => 1, fun _ => 1, fun _ _ _ => 1, fun _ _ => 1, fun _ _ => 1⟩

/-- Concrete one-dimensional kernel over ℚ with hyperparameters
[sigma, nu, l1] = [1, 1, 1]. -/
def testKernel : MaternKernel ℚ := ⟨[1, 1, 1]⟩

section Lemmas

/-- A left fold that only adds is the starting value plus the list sum. -/
theorem foldl_add_eq_sum {α : Type} (f : α → R) :
    ∀ (l : List α) (a : R), l.foldl (fun acc x => acc + f x) a = a + (l.map f).sum
  | [], a => by simp
  | x :: xs, a => by
    simp only [List.foldl_cons, List.map_cons, List.sum_cons, foldl_add_eq_sum f xs]
    ring

/-- A left fold that only multiplies is the starting value times the list
product. -/
theorem foldl_mul_eq_prod {α : Type} (g : α → R) :
    ∀ (l : List α) (a : R), l.foldl (fun acc x => acc * g x) a = a * (l.map g).prod
  | [], a => by simp
  | x :: xs, a => by
    simp only [List.foldl_cons, List.map_cons, List.prod_cons, foldl_mul_eq_prod g xs]
    ring

/-- Summing a function over List.range agrees with the Finset.range sum. -/
theorem sum_map_range (f : ℕ → R) :
    ∀ n : ℕ, ((List.range n).map f).sum = ∑ k ∈ Finset.range n, f k
  | 0 => by simp
  | n + 1 => by
    rw [List.range_succ, List.map_append, List.sum_append, sum_map_range f n,
      Finset.sum_range_succ]
    simp

/-- Index lookup into a zip of two lists from lookups into each list. -/
theorem getElem?_zip_some {α β : Type} :
    ∀ (l1 : List α) (l2 : List β) (i : ℕ) (x : α) (y : β),
      l1[i]? = some x → l2[i]? = some y → (l1.zip l2)[i]? = some (x, y)
  | [], _, i, _, _, h1, _ => by simp at h1
  | _ :: _, [], i, _, _, _, h2 => by simp at h2
  | a :: l1, b :: l2, 0, x, y, h1, h2 => by
    simp_all
  | a :: l1, b :: l2, i + 1, x, y, h1, h2 => by
    simpa using getElem?_zip_some l1 l2 i x y (by simpa using h1) (by simpa using h2)

/-- The Leibniz accumulation loop equals the binomial sum of the claim. -/
theorem dkdySum_eq_sum (L : SpecialFns R) (nu y : R) (n : ℕ) :
    dkdySum L nu y n = ∑ k ∈ Finset.range (n + 1),
      (n.choose k : R) * pochR (1 - (k : R) + nu) k *
        L.rpow y (nu - (k : R)) * L.kvp nu y (n - k) := by
  have h1 : dkdySum L nu y n =
      0 + ((List.range (n + 1)).map (fun k =>
        (n.choose k : R) * pochR (1 - (k : R) + nu) k *
          L.rpow y (-(k : R) + nu) * L.kvp nu y (n - k))).sum :=
    foldl_add_eq_sum _ _ _
  rw [h1, zero_add, sum_map_range (fun k =>
    (n.choose k : R) * pochR (1 - (k : R) + nu) k *
      L.rpow y (-(k : R) + nu) * L.kvp nu y (n - k)) (n + 1)]
  exact Finset.sum_congr rfl fun k _ => by rw [neg_add_eq_sub]

/-- Value of the outer-derivative evaluator at a row with y != 0. -/
theorem dkdy_nonzero_row (L : SpecialFns R) (self : MaternKernel R) (ys : List R)
    (n i : ℕ) (yv : R) (h : ys[i]? = some yv) (hy : yv ≠ 0) :
    ((self._compute_dk_dy L ys n).1.1)[i]? =
      some ((∑ k ∈ Finset.range (n + 1),
        (n.choose k : R) * pochR (1 - (k : R) + self.nu) k *
          L.rpow yv (self.nu - (k : R)) * L.kvp self.nu yv (n - k)) *
        (L.rpow 2 (1 - self.nu) / L.gamma self.nu)) := by
  simp only [MaternKernel._compute_dk_dy, List.getElem?_map, h, Option.map_some']
  rw [if_pos hy, dkdySum_eq_sum]

/-- Value of the outer-derivative evaluator at a row with y == 0. -/
theorem dkdy_zero_row (L : SpecialFns R) (self : MaternKernel R) (ys : List R)
    (n i : ℕ) (h : ys[i]? = some 0) :
    ((self._compute_dk_dy L ys n).1.1)[i]? =
      some (dkdyOrigin L self.nu n * (L.rpow 2 (1 - self.nu) / L.gamma self.nu)) := by
  simp only [MaternKernel._compute_dk_dy, List.getElem?_map, h, Option.map_some']
  simp

/-- Value of the inner-derivative evaluator at a row with r2l2 != 0: the sum
over all set partitions of b of the per-partition term, each term being the
partition prefactor times the product of the block derivatives. -/
theorem dydtau_nonzero_row (L : SpecialFns R) (self : MaternKernel R)
    (tau : List (List R)) (b : List ℕ) (r2l2 : List R) (nDim i : ℕ)
    (trow : List R) (rv : R) (ht : tau[i]? = some trow)
    (hr : r2l2[i]? = some rv) (hrv : rv ≠ 0) :
    ((self._compute_dy_dtau L tau b r2l2 nDim).1)[i]? =
      some (((generate_set_partitions b).map (fun p =>
        L.sqrt (2 * self.nu) * pochR (1 - (p.length : R) + 1 / 2) p.length *
          L.rpow rv (-(p.length : R) + 1 / 2) *
          (p.map (fun blk => dTRow self trow blk)).prod)).sum) := by
  simp only [MaternKernel._compute_dy_dtau, List.getElem?_map,
    getElem?_zip_some tau r2l2 i trow rv ht hr, Option.map_some']
  rw [if_pos hrv]
  have h1 : (generate_set_partitions b).foldl
      (fun acc p => acc + dyDtauTermRow L self trow p rv) 0 =
      0 + ((generate_set_partitions b).map
        (fun p => dyDtauTermRow L self trow p rv)).sum :=
    foldl_add_eq_sum _ _ _
  rw [h1, zero_add]
  have h3 : (generate_set_partitions b).map (fun p => dyDtauTermRow L self trow p rv) =
      (generate_set_partitions b).map (fun p =>
        L.sqrt (2 * self.nu) * pochR (1 - (p.length : R) + 1 / 2) p.length *
          L.rpow rv (-(p.length : R) + 1 / 2) *
          (p.map (fun blk => dTRow self trow blk)).prod) := by
    refine List.map_congr_left fun p _ => ?_
    have h2 : dyDtauTermRow L self trow p rv =
        (L.sqrt (2 * self.nu) * pochR (1 - (p.length : R) + 1 / 2) p.length *
          L.rpow rv (-(p.length : R) + 1 / 2)) *
          (p.map (fun blk => dTRow self trow blk)).prod :=
      foldl_mul_eq_prod _ _ _
    rw [h2]
  rw [h3]

/-- Value of the kernel value evaluator at a row with r2l2 == 0. -/
theorem k_origin_row (L : SpecialFns R) (self : MaternKernel R)
    (tau : List (List R)) (i : ℕ) (h : (_compute_r2l2 self tau)[i]? = some 0) :
    ((self._compute_k L tau).1)[i]? = some 1 := by
  simp only [MaternKernel._compute_k, List.getElem?_map, h, Option.map_some']
  simp

/-- Value of the inner-derivative evaluator at a row with r2l2 == 0. -/
theorem dydtau_zero_row (L : SpecialFns R) (self : MaternKernel R)
    (tau : List (List R)) (b : List ℕ) (r2l2 : List R) (nDim i : ℕ)
    (trow : List R) (ht : tau[i]? = some trow) (hr : r2l2[i]? = some 0) :
    ((self._compute_dy_dtau L tau b r2l2 nDim).1)[i]? =
      some (L.mpDiffY self.params (derivsOf b nDim)) := by
  simp only [MaternKernel._compute_dy_dtau, List.getElem?_map,
    getElem?_zip_some tau r2l2 i trow 0 ht hr, Option.map_some']
  simp

/-- Each step of the derivs accumulation loop bumps exactly one entry. -/
theorem foldl_bump_getElem? :
    ∀ (b : List ℕ) (l : List ℕ) (j : ℕ), (∀ d ∈ b, d < l.length) →
      (b.foldl (fun derivs d => derivs.set d (derivs.getD d 0 + 1)) l)[j]? =
        l[j]?.map (fun v => v + b.count j)
  | [], l, j, _ => by cases h : l[j]? <;> simp [h]
  | d :: bs, l, j, hlt => by
    have hd : d < l.length := hlt d (List.mem_cons_self d bs)
    have hlen : ∀ x ∈ bs, x < (l.set d (l.getD d 0 + 1)).length := by
      intro x hx
      rw [List.length_set]
      exact hlt x (List.mem_cons_of_mem d hx)
    rw [List.foldl_cons, foldl_bump_getElem? bs _ j hlen, List.getElem?_set]
    by_cases hdj : d = j
    · subst hdj
      have hsome := List.getElem?_eq_getElem hd
      rw [if_pos rfl, if_pos hd, hsome]
      have hgetD : l.getD d 0 = l[d] := by
        rw [List.getD_eq_getElem?_getD, hsome]
        rfl
      simp only [Option.map_some', hgetD, List.count_cons]
      congr 1
      simp
      omega
    · rw [if_neg hdj]
      have : (d :: bs).count j = bs.count j := by
        simp [List.count_cons, hdj]
      rw [this]

/-- The derivative-order vector built by the accumulation loop is the per-
dimension occurrence count of the multi-index, provided every index is in
range. -/
theorem derivsOf_eq_counts (b : List ℕ) (nDim : ℕ) (hb : ∀ d ∈ b, d < nDim) :
    derivsOf b nDim = (List.range nDim).map (fun d => b.count d) := by
  apply List.ext_getElem?
  intro j
  have hlen : ∀ d ∈ b, d < (List.replicate nDim (0 : ℕ)).length := by
    simpa using hb
  rw [derivsOf, foldl_bump_getElem? b (List.replicate nDim 0) j hlen,
    List.getElem?_replicate, List.getElem?_map]
  by_cases hj : j < nDim
  · rw [if_pos hj, List.getElem?_range hj]
    simp
  · rw [if_neg hj]
    have : (List.range nDim)[j]? = none := by
      simp [List.getElem?_eq_none_iff]
      omega
    rw [this]
    rfl

end Lemmas

section Claims

/-- C1: with nu > 0, the kernel value evaluator returns exactly 1 at every row
whose scaled squared distance r2l2 is 0, overriding the closed form. -/
theorem matern_value_one_at_origin (L : SpecialFns R) (self : MaternKernel R)
    (tau : List (List R)) (i : ℕ) (_hnu : 0 < self.nu)
    (h : (_compute_r2l2 self tau)[i]? = some 0) :
    ((self._compute_k L tau).1)[i]? = some 1 :=
  k_origin_row L self tau i h

/-- Witness for C1 at the concrete 1-d kernel [1, 1, 1] and tau = [[0]]. -/
theorem matern_value_one_at_origin_witness :
    0 < testKernel.nu ∧ ((testKernel._compute_k testLib [[(0 : ℚ)]]).1)[0]? = some 1 :=
  ⟨by norm_num [testKernel, MaternKernel.nu],
   matern_value_one_at_origin testLib testKernel [[(0 : ℚ)]] 0
    (by norm_num [testKernel, MaternKernel.nu])
    (by norm_num [_compute_r2l2, testKernel])⟩

/-- C2: at every row with y != 0, the outer-derivative evaluator returns the
generalized Leibniz sum over k of binom(n,k) * poch(1-k+nu, k) * y^(nu-k) *
K_nu^(n-k)(y), scaled by 2^(1-nu)/Gamma(nu). -/
theorem matern_dkdy_leibniz_sum (L : SpecialFns R) (self : MaternKernel R)
    (ys : List R) (n i : ℕ) (yv : R) (h : ys[i]? = some yv) (hy : yv ≠ 0) :
    ((self._compute_dk_dy L ys n).1.1)[i]? =
      some ((∑ k ∈ Finset.range (n + 1),
        (n.choose k : R) * pochR (1 - (k : R) + self.nu) k *
          L.rpow yv (self.nu - (k : R)) * L.kvp self.nu yv (n - k)) *
        (L.rpow 2 (1 - self.nu) / L.gamma self.nu)) :=
  dkdy_nonzero_row L self ys n i yv h hy

/-- Witness for C2 at the concrete kernel, y = [2], n = 1. -/
theorem matern_dkdy_leibniz_sum_witness :
    ((testKernel._compute_dk_dy testLib [(2 : ℚ)] 1).1.1)[0]? =
      some ((∑ k ∈ Finset.range 2,
        ((1 : ℕ).choose k : ℚ) * pochR (1 - (k : ℚ) + testKernel.nu) k *
          testLib.rpow 2 (testKernel.nu - (k : ℚ)) * testLib.kvp testKernel.nu 2 (1 - k)) *
        (testLib.rpow 2 (1 - testKernel.nu) / testLib.gamma testKernel.nu)) :=
  matern_dkdy_leibniz_sum testLib testKernel [(2 : ℚ)] 1 0 2 (by norm_num) (by norm_num)

/-- C3: at every row with r2l2 != 0, the inner-derivative evaluator returns
the sum over every set partition of b of
sqrt(2 nu) * poch(1 - n_p + 0.5, n_p) * r2l2^(-n_p + 0.5) times the product
over the partition blocks of the anisotropic-distance derivative, where n_p
is the number of blocks. -/
theorem matern_dydtau_faa_di_bruno (L : SpecialFns R) (self : MaternKernel R)
    (tau : List (List R)) (b : List ℕ) (r2l2 : List R) (nDim i : ℕ)
    (trow : List R) (rv : R) (ht : tau[i]? = some trow)
    (hr : r2l2[i]? = some rv) (hrv : rv ≠ 0) :
    ((self._compute_dy_dtau L tau b r2l2 nDim).1)[i]? =
      some (((generate_set_partitions b).map (fun p =>
        L.sqrt (2 * self.nu) * pochR (1 - (p.length : R) + 1 / 2) p.length *
          L.rpow rv (-(p.length : R) + 1 / 2) *
          (p.map (fun blk => dTRow self trow blk)).prod)).sum) :=
  dydtau_nonzero_row L self tau b r2l2 nDim i trow rv ht hr hrv

/-- Witness for C3 at the concrete kernel, tau = [[3]], b = [0], r2l2 = [9]. -/
theorem matern_dydtau_faa_di_bruno_witness :
    ((testKernel._compute_dy_dtau testLib [[(3 : ℚ)]] [0] [(9 : ℚ)] 1).1)[0]? =
      some (((generate_set_partitions [0]).map (fun p =>
        testLib.sqrt (2 * testKernel.nu) * pochR (1 - (p.length : ℚ) + 1 / 2) p.length *
          testLib.rpow 9 (-(p.length : ℚ) + 1 / 2) *
          (p.map (fun blk => dTRow testKernel [(3 : ℚ)] blk)).prod)).sum) :=
  matern_dydtau_faa_di_bruno testLib testKernel [[(3 : ℚ)]] [0] [(9 : ℚ)] 1 0
    [(3 : ℚ)] 9 rfl rfl (by norm_num)

/-- C4: at a row with y == 0 and for n < 2 nu, the outer-derivative evaluator
returns exactly 0 for odd n, and for even n (m = n/2) returns
(-1)^m * 2^(nu-1-n) * Gamma(nu-m) * n!/m!, scaled by 2^(1-nu)/Gamma(nu). -/
theorem matern_dkdy_origin_closed_form (L : SpecialFns R) (self : MaternKernel R)
    (ys : List R) (n i : ℕ) (hn : (n : R) < 2 * self.nu) (h : ys[i]? = some 0) :
    (n % 2 = 1 → ((self._compute_dk_dy L ys n).1.1)[i]? = some 0) ∧
    (n % 2 = 0 → ((self._compute_dk_dy L ys n).1.1)[i]? =
      some ((-1 : R) ^ (n / 2) * L.rpow 2 (self.nu - 1 - (n : R)) *
        L.gamma (self.nu - ((n / 2 : ℕ) : R)) *
        (n.factorial : R) / ((n / 2).factorial : R) *
        (L.rpow 2 (1 - self.nu) / L.gamma self.nu))) := by
  have hrow := dkdy_zero_row L self ys n i h
  constructor
  · intro hodd
    rw [hrow]
    simp only [dkdyOrigin, if_pos hn, if_pos hodd, zero_mul]
  · intro heven
    have hodd : ¬(n % 2 = 1) := by omega
    rw [hrow]
    simp only [dkdyOrigin, if_pos hn, if_neg hodd]

/-- Witness for C4 at the concrete kernel: n = 1 (odd) and n = 0 (even),
both at y = [0] where 1 < 2 nu = 2. -/
theorem matern_dkdy_origin_closed_form_witness :
    ((testKernel._compute_dk_dy testLib [(0 : ℚ)] 1).1.1)[0]? = some 0 ∧
    ((testKernel._compute_dk_dy testLib [(0 : ℚ)] 0).1.1)[0]? =
      some ((-1 : ℚ) ^ (0 / 2) * testLib.rpow 2 (testKernel.nu - 1 - (0 : ℚ)) *
        testLib.gamma (testKernel.nu - ((0 / 2 : ℕ) : ℚ)) *
        ((0 : ℕ).factorial : ℚ) / (((0 : ℕ) / 2).factorial : ℚ) *
        (testLib.rpow 2 (1 - testKernel.nu) / testLib.gamma testKernel.nu)) :=
  ⟨(matern_dkdy_origin_closed_form testLib testKernel [(0 : ℚ)] 1 0
      (by norm_num [testKernel, MaternKernel.nu]) rfl).1 rfl,
   (matern_dkdy_origin_closed_form testLib testKernel [(0 : ℚ)] 0 0
      (by norm_num [testKernel, MaternKernel.nu]) rfl).2 rfl⟩

/-- C5: the outer-derivative evaluator emits its warning iff n >= 2 nu, and in
that case it still returns a result, with the y == 0 rows filled by the
arbitrary-precision numerical derivative of x^nu K_nu(x) at 0 from the
positive side, scaled by 2^(1-nu)/Gamma(nu). -/
theorem matern_dkdy_warning_iff (L : SpecialFns R) (self : MaternKernel R)
    (ys : List R) (n : ℕ) :
    (((self._compute_dk_dy L ys n).1.2 = true) ↔ 2 * self.nu ≤ (n : R)) ∧
    (∀ i : ℕ, 2 * self.nu ≤ (n : R) → ys[i]? = some 0 →
      ((self._compute_dk_dy L ys n).1.1)[i]? =
        some (L.mpDiffCore self.nu n * (L.rpow 2 (1 - self.nu) / L.gamma self.nu))) := by
  constructor
  · simp [MaternKernel._compute_dk_dy]
  · intro i hge h0
    rw [dkdy_zero_row L self ys n i h0]
    simp only [dkdyOrigin, if_neg (not_lt.mpr hge)]

/-- Witness for C5 at the concrete kernel with n = 2 = 2 nu and y = [0]. -/
theorem matern_dkdy_warning_iff_witness :
    ((testKernel._compute_dk_dy testLib [(0 : ℚ)] 2).1.2 = true) ∧
    ((testKernel._compute_dk_dy testLib [(0 : ℚ)] 2).1.1)[0]? =
      some (testLib.mpDiffCore testKernel.nu 2 *
        (testLib.rpow 2 (1 - testKernel.nu) / testLib.gamma testKernel.nu)) :=
  ⟨(matern_dkdy_warning_iff testLib testKernel [(0 : ℚ)] 2).1.mpr
      (by norm_num [testKernel, MaternKernel.nu]),
   (matern_dkdy_warning_iff testLib testKernel [(0 : ℚ)] 2).2 0
      (by norm_num [testKernel, MaternKernel.nu]) rfl⟩

/-- C6: the anisotropic-distance derivative primitive is identically zero for
blocks of order >= 3 or touching more than one distinct dimension; an order-1
block on dimension d gives 2 tau_d / l_d^2 per row; an order-2 block on a
single dimension d gives the constant 2 / l_d^2 at every row, independent of
tau. -/
theorem matern_dT_dtau_cases (self : MaternKernel R) (tau : List (List R))
    (b : List ℕ) :
    ((3 ≤ b.length ∨ 1 < b.dedup.length) → ∀ (i : ℕ) (trow : List R),
      tau[i]? = some trow → ((self._compute_dT_dtau tau b).1)[i]? = some 0) ∧
    (∀ d : ℕ, b = [d] → ∀ (i : ℕ) (trow : List R), tau[i]? = some trow →
      ((self._compute_dT_dtau tau b).1)[i]? =
        some (2 * trow.getD d 0 / (self.params.getD (2 + d) 0) ^ 2)) ∧
    (∀ d : ℕ, b = [d, d] → ∀ (i : ℕ) (trow : List R), tau[i]? = some trow →
      ((self._compute_dT_dtau tau b).1)[i]? =
        some (2 / (self.params.getD (2 + d) 0) ^ 2)) := by
  refine ⟨?_, ?_, ?_⟩
  · intro hb i trow ht
    simp only [MaternKernel._compute_dT_dtau, List.getElem?_map, ht, Option.map_some']
    simp only [dTRow, if_pos hb]
  · intro d hb i trow ht
    subst hb
    simp only [MaternKernel._compute_dT_dtau, List.getElem?_map, ht, Option.map_some']
    simp [dTRow]
  · intro d hb i trow ht
    subst hb
    simp only [MaternKernel._compute_dT_dtau, List.getElem?_map, ht, Option.map_some']
    simp [dTRow, List.dedup_cons_of_mem]

/-- Witness for C6 at the concrete kernel: a mixed block [0, 1], an order-1
block [0], and an order-2 block [0, 0], all at tau = [[5]]. -/
theorem matern_dT_dtau_cases_witness :
    ((testKernel._compute_dT_dtau [[(5 : ℚ)]] [0, 1]).1)[0]? = some 0 ∧
    ((testKernel._compute_dT_dtau [[(5 : ℚ)]] [0]).1)[0]? =
      some (2 * ([(5 : ℚ)]).getD 0 0 / (testKernel.params.getD 2 0) ^ 2) ∧
    ((testKernel._compute_dT_dtau [[(5 : ℚ)]] [0, 0]).1)[0]? =
      some (2 / (testKernel.params.getD 2 0) ^ 2) :=
  ⟨(matern_dT_dtau_cases testKernel [[(5 : ℚ)]] [0, 1]).1 (by decide) 0 [5] rfl,
   (matern_dT_dtau_cases testKernel [[(5 : ℚ)]] [0]).2.1 0 rfl 0 [5] rfl,
   (matern_dT_dtau_cases testKernel [[(5 : ℚ)]] [0, 0]).2.2 0 rfl 0 [5] rfl⟩

/-- C7: every singular row (r2l2 == 0, equivalently y == 0) of the kernel
value, outer-derivative and inner-derivative evaluators is resolved by its
dedicated branch (closed form or arbitrary-precision fallback), so the naive
closed forms with their singular exponents are never evaluated there; the
inner fallback differentiates y(tau) at the origin with per-dimension orders
that are the occurrence counts of b (positive-side direction and chop are
part of the mpDiffY interface). -/
theorem matern_singular_rows_resolved (L : SpecialFns R) (self : MaternKernel R) :
    (∀ (tau : List (List R)) (i : ℕ), (_compute_r2l2 self tau)[i]? = some 0 →
      ((self._compute_k L tau).1)[i]? = some 1) ∧
    (∀ (ys : List R) (n i : ℕ), ys[i]? = some 0 →
      ((self._compute_dk_dy L ys n).1.1)[i]? =
        some (dkdyOrigin L self.nu n * (L.rpow 2 (1 - self.nu) / L.gamma self.nu))) ∧
    (∀ (tau : List (List R)) (b : List ℕ) (r2l2 : List R) (nDim i : ℕ)
      (trow : List R), tau[i]? = some trow → r2l2[i]? = some 0 →
      ((self._compute_dy_dtau L tau b r2l2 nDim).1)[i]? =
        some (L.mpDiffY self.params (derivsOf b nDim))) ∧
    (∀ (b : List ℕ) (nDim : ℕ), (∀ d ∈ b, d < nDim) →
      derivsOf b nDim = (List.range nDim).map (fun d => b.count d)) :=
  ⟨fun tau i h => k_origin_row L self tau i h,
   fun ys n i h => dkdy_zero_row L self ys n i h,
   fun tau b r2l2 nDim i trow ht hr => dydtau_zero_row L self tau b r2l2 nDim i trow ht hr,
   fun b nDim hb => derivsOf_eq_counts b nDim hb⟩

/-- Witness for C7: concrete singular rows for all three evaluators and a
concrete occurrence-count check. -/
theorem matern_singular_rows_resolved_witness :
    ((testKernel._compute_k testLib [[(0 : ℚ)]]).1)[0]? = some 1 ∧
    ((testKernel._compute_dk_dy testLib [(0 : ℚ)] 1).1.1)[0]? =
      some (dkdyOrigin testLib testKernel.nu 1 *
        (testLib.rpow 2 (1 - testKernel.nu) / testLib.gamma testKernel.nu)) ∧
    ((testKernel._compute_dy_dtau testLib [[(0 : ℚ)]] [0, 0] [(0 : ℚ)] 1).1)[0]? =
      some (testLib.mpDiffY testKernel.params (derivsOf [0, 0] 1)) ∧
    derivsOf [0, 0, 1] 2 = (List.range 2).map (fun d => [0, 0, 1].count d) :=
  ⟨(matern_singular_rows_resolved testLib testKernel).1 [[(0 : ℚ)]] 0
      (by norm_num [_compute_r2l2, testKernel]),
   (matern_singular_rows_resolved testLib testKernel).2.1 [(0 : ℚ)] 1 0 rfl,
   (matern_singular_rows_resolved testLib testKernel).2.2.1 [[(0 : ℚ)]] [0, 0]
      [(0 : ℚ)] 1 0 [(0 : ℚ)] rfl rfl,
   (matern_singular_rows_resolved testLib testKernel).2.2.2 [0, 0, 1] 2 (by decide)⟩

/-- C8: no operation of the engine modifies the hyperparameter vector: every
method returns the object unchanged, and the nu accessor is a pure read of
the second entry of self.params. -/
theorem matern_no_params_mutation (L : SpecialFns R) (self : MaternKernel R)
    (tau : List (List R)) (ys : List R) (n : ℕ) (b : List ℕ)
    (p : List (List ℕ)) (r2l2 : List R) (nDim : ℕ) :
    (self._compute_k L tau).2 = self ∧
    (self._compute_dk_dy L ys n).2 = self ∧
    (self._compute_dy_dtau L tau b r2l2 nDim).2 = self ∧
    (self._compute_dy_dtau_on_partition L tau p r2l2).2 = self ∧
    (self._compute_dT_dtau tau b).2 = self ∧
    self.nu = self.params.getD 1 0 :=
  ⟨rfl, rfl, rfl, rfl, rfl, rfl⟩

/-- C9: with nu > 0, the outer-derivative evaluator at order n = 0 returns
per row exactly the kernel value evaluator's formula: 1 at rows with y == 0
and 2^(1-nu)/Gamma(nu) * y^nu * K_nu(y) elsewhere.  The two library facts
Gamma(nu) != 0 and 2^(1-nu) * 2^(nu-1) = 1 are the cancellations the claim
relies on. -/
theorem matern_dkdy_order_zero_matches_value (L : SpecialFns R)
    (self : MaternKernel R) (ys : List R) (i : ℕ) (yv : R)
    (hnu : 0 < self.nu) (hg : L.gamma self.nu ≠ 0)
    (hr2 : L.rpow 2 (1 - self.nu) * L.rpow 2 (self.nu - 1) = 1)
    (h : ys[i]? = some yv) :
    ((self._compute_dk_dy L ys 0).1.1)[i]? =
      some (if yv = 0 then 1 else
        L.rpow 2 (1 - self.nu) / L.gamma self.nu *
          L.rpow yv self.nu * L.kv self.nu yv) := by
  by_cases hy : yv = 0
  · subst hy
    rw [dkdy_zero_row L self ys 0 i h, if_pos rfl]
    congr 1
    have h2 : ((0 : ℕ) : R) < 2 * self.nu := by
      push_cast
      linarith
    simp only [dkdyOrigin, if_pos h2]
    norm_num
    field_simp
    linear_combination L.gamma self.nu * hr2
  · rw [dkdy_nonzero_row L self ys 0 i yv h hy, if_neg hy]
    congr 1
    rw [Finset.sum_range_one]
    simp only [Nat.choose_self, Nat.cast_one, Nat.cast_zero, pochR, SpecialFns.kv,
      Nat.sub_zero, sub_zero, one_mul]
    ring

/-- Witness for C9 at the concrete kernel with y = [0]. -/
theorem matern_dkdy_order_zero_matches_value_witness :
    ((testKernel._compute_dk_dy testLib [(0 : ℚ)] 0).1.1)[0]? =
      some (if (0 : ℚ) = 0 then 1 else
        testLib.rpow 2 (1 - testKernel.nu) / testLib.gamma testKernel.nu *
          testLib.rpow 0 testKernel.nu * testLib.kv testKernel.nu 0) :=
  matern_dkdy_order_zero_matches_value testLib testKernel [(0 : ℚ)] 0 0
    (by norm_num [testKernel, MaternKernel.nu])
    (by norm_num [testLib])
    (by norm_num [testLib])
    rfl

/-- C10: the singular-point handling writes only to the singular rows: every
row with y != 0 of the outer-derivative evaluator is the Leibniz sum even
when n >= 2 nu, and every row with r2l2 != 0 of the inner-derivative
evaluator is the Faa di Bruno partition sum, unaffected by the origin
fallback computed in the same call. -/
theorem matern_singular_fix_frame (L : SpecialFns R) (self : MaternKernel R) :
    (∀ (ys : List R) (n i : ℕ) (yv : R), 2 * self.nu ≤ (n : R) →
      ys[i]? = some yv → yv ≠ 0 →
      ((self._compute_dk_dy L ys n).1.1)[i]? =
        some ((∑ k ∈ Finset.range (n + 1),
          (n.choose k : R) * pochR (1 - (k : R) + self.nu) k *
            L.rpow yv (self.nu - (k : R)) * L.kvp self.nu yv (n - k)) *
          (L.rpow 2 (1 - self.nu) / L.gamma self.nu))) ∧
    (∀ (tau : List (List R)) (b : List ℕ) (r2l2 : List R) (nDim i : ℕ)
      (trow : List R) (rv : R), tau[i]? = some trow → r2l2[i]? = some rv →
      rv ≠ 0 →
      ((self._compute_dy_dtau L tau b r2l2 nDim).1)[i]? =
        some (((generate_set_partitions b).map (fun p =>
          L.sqrt (2 * self.nu) * pochR (1 - (p.length : R) + 1 / 2) p.length *
            L.rpow rv (-(p.length : R) + 1 / 2) *
            (p.map (fun blk => dTRow self trow blk)).prod)).sum)) :=
  ⟨fun ys n i yv _ h hy => dkdy_nonzero_row L self ys n i yv h hy,
   fun tau b r2l2 nDim i trow rv ht hr hrv =>
     dydtau_nonzero_row L self tau b r2l2 nDim i trow rv ht hr hrv⟩

/-- Witness for C10 at the concrete kernel: n = 2 = 2 nu at y = [1], and a
nonsingular row of the inner evaluator with b = [0, 0]. -/
theorem matern_singular_fix_frame_witness :
    ((testKernel._compute_dk_dy testLib [(1 : ℚ)] 2).1.1)[0]? =
      some ((∑ k ∈ Finset.range 3,
        ((2 : ℕ).choose k : ℚ) * pochR (1 - (k : ℚ) + testKernel.nu) k *
          testLib.rpow 1 (testKernel.nu - (k : ℚ)) * testLib.kvp testKernel.nu 1 (2 - k)) *
        (testLib.rpow 2 (1 - testKernel.nu) / testLib.gamma testKernel.nu)) ∧
    ((testKernel._compute_dy_dtau testLib [[(1 : ℚ)]] [0, 0] [(4 : ℚ)] 1).1)[0]? =
      some (((generate_set_partitions [0, 0]).map (fun p =>
        testLib.sqrt (2 * testKernel.nu) * pochR (1 - (p.length : ℚ) + 1 / 2) p.length *
          testLib.rpow 4 (-(p.length : ℚ) + 1 / 2) *
          (p.map (fun blk => dTRow testKernel [(1 : ℚ)] blk)).prod)).sum) :=
  ⟨(matern_singular_fix_frame testLib testKernel).1 [(1 : ℚ)] 2 0 1
      (by norm_num [testKernel, MaternKernel.nu]) rfl (by norm_num),
   (matern_singular_fix_frame testLib testKernel).2 [[(1 : ℚ)]] [0, 0] [(4 : ℚ)]
      1 0 [(1 : ℚ)] 4 rfl rfl (by norm_num)⟩

end Claims

end Gptools
